import Mathlib

/-!
Verification development for the AsyncCryptoStore adapter
(src/AsyncCryptoStore.ts of matrix-rn-sdk): an end-to-end-encryption
crypto store implemented on top of a flat asynchronous key-value backend.

Shallow embedding conventions:
* A JS string is modelled as a `List Char` (`JSString`).
* The backend (MockAsyncStore / AsyncStore contract: getAllKeys, getItem,
  setItem, removeItem over a JS `Map`) is modelled as an insertion-ordered
  association list from keys to values, with `setItem` updating in place.
* Every value stored by AsyncCryptoStore goes through `_setJsonItem` /
  `_getJsonItem` (JSON.stringify / JSON.parse).  We therefore identify a
  stored value string with the JSON tree it parses to and let the store
  hold `Json` values directly.  `_getJsonItem` on an absent key returns
  JS `null`, i.e. `Json.null`.
* The JS builtins `encodeURIComponent` / `decodeURIComponent` and
  `String.prototype.split` are modelled faithfully: percent-escaping of
  the UTF-8 bytes of every character outside the unreserved set, with
  `decodeURIComponent` failing (`none`, i.e. a thrown URIError) on
  malformed input.
* The listing/iteration operations run their backend calls in strict
  sequence (spec section 5: single-threaded cooperative execution), so
  each operation is embedded as a pure function of the store; callback
  deliveries are captured as the list of arguments the callback receives.
-/

abbrev JSString := List Char

/-- Shorthand turning a Lean string literal into our JS string model. -/
def str (s : String) : JSString := s.data

/-- JSON values (the image of JSON.parse).  Numbers are modelled as
integers, which suffices for every payload this development touches. -/
inductive Json where
  | null
  | bool (b : Bool)
  | num (n : Int)
  | str (s : JSString)
  | arr (xs : List Json)
  | obj (fields : List (JSString × Json))

/-- JS truthiness restricted to JSON values: null, false, 0 and the empty
string are falsy; arrays and objects are always truthy. -/
def jsonFalsy : Json → Bool
  | .null => true
  | .bool b => !b
  | .num n => n = 0
  | .str s => s.isEmpty
  | .arr _ => false
  | .obj _ => false

/-- Backend state: insertion-ordered association list, the model of the
JS `Map` in MockAsyncStore (the reference implementation of the
AsyncStore contract in this repository). -/
abbrev Store := List (JSString × Json)

/-- AsyncStore.getItem (absent key gives JS null, modelled as `none`). -/
def getItem : Store → JSString → Option Json
  | [], _ => none
  | (k, v) :: rest, key => if key = k then some v else getItem rest key

/-- AsyncStore.setItem: JS `Map.set` updates an existing key in place
(keeping its position) and otherwise appends. -/
def setItem : Store → JSString → Json → Store
  | [], key, val => [(key, val)]
  | (k, v) :: rest, key, val =>
    if key = k then (k, val) :: rest else (k, v) :: setItem rest key val

/-- AsyncStore.removeItem: JS `Map.delete`. -/
def removeItem : Store → JSString → Store
  | [], _ => []
  | (k, v) :: rest, key =>
    if key = k then removeItem rest key else (k, v) :: removeItem rest key

/-- AsyncStore.getAllKeys: the key listing in insertion order. -/
def getAllKeys (s : Store) : List JSString := s.map (fun p => p.1)

/-- AsyncCryptoStore._getJsonItem: `JSON.parse` of the stored string;
an absent key yields JS null. -/
def getJsonItem (s : Store) (key : JSString) : Json :=
  match getItem s key with
  | none => Json.null
  | some v => v

/-- AsyncCryptoStore._setJsonItem: store the serialized value. -/
def setJsonItem (s : Store) (key : JSString) (val : Json) : Store :=
  setItem s key val

/-- `k.startsWith p` on JS strings. -/
def startsWith : JSString → JSString → Bool
  | _, [] => true
  | [], _ :: _ => false
  | c :: cs, p :: ps => c = p && startsWith cs ps

/-- JS `k.split("/")`: splits on every separator, keeping empty segments;
the empty string splits to one empty segment. -/
def splitSlash : JSString → List JSString
  | [] => [[]]
  | c :: rest =>
    match splitSlash rest with
    | [] => [[]]
    | seg :: segs => if c = '/' then [] :: seg :: segs else (c :: seg) :: segs

/-- JS `parts[i]` followed by use as a string: out-of-range indexing
yields `undefined`, which `decodeURIComponent` coerces to the string
"undefined". -/
def segAt (parts : List JSString) (i : Nat) : JSString :=
  (parts.get? i).getD (str "undefined")

/-! ### encodeURIComponent / decodeURIComponent -/

/-- Characters `encodeURIComponent` leaves unescaped:
A-Z a-z 0-9 - _ . ! ~ * ' ( ) (given by character code). -/
def isUnreservedCode (n : Nat) : Bool :=
  (65 ≤ n && n ≤ 90) || (97 ≤ n && n ≤ 122) || (48 ≤ n && n ≤ 57) ||
  n = 45 || n = 95 || n = 46 || n = 33 || n = 126 || n = 42 ||
  n = 39 || n = 40 || n = 41

/-- UTF-8 bytes of a unicode scalar value. -/
def utf8Bytes (c : Char) : List Nat :=
  let n := c.toNat
  if n < 128 then [n]
  else if n < 2048 then [192 + n / 64, 128 + n % 64]
  else if n < 65536 then [224 + n / 4096, 128 + n / 64 % 64, 128 + n % 64]
  else [240 + n / 262144, 128 + n / 4096 % 64, 128 + n / 64 % 64, 128 + n % 64]

/-- Uppercase hex digit of a value below 16 (encodeURIComponent emits
uppercase hex). -/
def hexDigitChar (n : Nat) : Char :=
  Char.ofNat (if n < 10 then 48 + n else 55 + n)

/-- Percent-escape of one byte: "%XY". -/
def encByte (b : Nat) : JSString :=
  ['%', hexDigitChar (b / 16), hexDigitChar (b % 16)]

/-- One character's contribution to `encodeURIComponent`. -/
def encodeChar (c : Char) : JSString :=
  if isUnreservedCode c.toNat then [c]
  else (utf8Bytes c).flatMap encByte

/-- The JS builtin `encodeURIComponent`. -/
def encodeURIComponent (s : JSString) : JSString :=
  s.flatMap encodeChar

/-- Value of a hex digit character (decodeURIComponent accepts both
cases). -/
def hexVal (c : Char) : Option Nat :=
  let n := c.toNat
  if 48 ≤ n && n ≤ 57 then some (n - 48)
  else if 65 ≤ n && n ≤ 70 then some (n - 55)
  else if 97 ≤ n && n ≤ 102 then some (n - 87)
  else none

/-- First pass of `decodeURIComponent`: turn the text into a byte
sequence, replacing each %XY escape by its byte and every literal
character by its UTF-8 bytes; malformed escapes fail (URIError). -/
def percentToBytes : JSString → Option (List Nat)
  | [] => some []
  | c :: rest =>
    if c = '%' then
      match rest with
      | h1 :: h2 :: rest2 =>
        match hexVal h1, hexVal h2 with
        | some v1, some v2 =>
          match percentToBytes rest2 with
          | some bs => some ((v1 * 16 + v2) :: bs)
          | none => none
        | _, _ => none
      | _ => none
    else
      match percentToBytes rest with
      | some bs => some (utf8Bytes c ++ bs)
      | none => none

/-- Helper: prepend the character with code `n` if `n` is a valid
unicode scalar value, else fail (URIError on lone surrogates or
out-of-range sequences). -/
def charFromCode (n : Nat) (r : Option (List Char)) : Option (List Char) :=
  if n < 55296 ∨ (57344 ≤ n ∧ n < 1114112) then r.map (fun cs => Char.ofNat n :: cs)
  else none

/-- One step of strict UTF-8 decoding: consume the scalar value encoded
by the leading byte `b` (and its continuation bytes from `bs`),
rejecting overlong forms and truncated sequences; returns the scalar and
the remaining bytes. -/
def utf8DecodeOne (b : Nat) (bs : List Nat) : Option (Nat × List Nat) :=
  if b < 128 then some (b, bs)
  else if b < 192 then none
  else if b < 224 then
    match bs with
    | b1 :: bs1 =>
      if 128 ≤ b1 ∧ b1 < 192 then
        if 128 ≤ (b - 192) * 64 + (b1 - 128) then some ((b - 192) * 64 + (b1 - 128), bs1)
        else none
      else none
    | [] => none
  else if b < 240 then
    match bs with
    | b1 :: b2 :: bs2 =>
      if (128 ≤ b1 ∧ b1 < 192) ∧ (128 ≤ b2 ∧ b2 < 192) then
        if 2048 ≤ (b - 224) * 4096 + (b1 - 128) * 64 + (b2 - 128) then
          some ((b - 224) * 4096 + (b1 - 128) * 64 + (b2 - 128), bs2)
        else none
      else none
    | _ => none
  else if b < 248 then
    match bs with
    | b1 :: b2 :: b3 :: bs3 =>
      if (128 ≤ b1 ∧ b1 < 192) ∧ (128 ≤ b2 ∧ b2 < 192) ∧ (128 ≤ b3 ∧ b3 < 192) then
        if 65536 ≤ (b - 240) * 262144 + (b1 - 128) * 4096 + (b2 - 128) * 64 + (b3 - 128) then
          some ((b - 240) * 262144 + (b1 - 128) * 4096 + (b2 - 128) * 64 + (b3 - 128), bs3)
        else none
      else none
    | _ => none
  else none

/-- Second pass of `decodeURIComponent`: strict UTF-8 decoding of the
whole byte sequence (fuel-indexed recursion; one scalar consumes at
least one byte, so fuel equal to the byte count always suffices). -/
def utf8DecodeAux : Nat → List Nat → Option (List Char)
  | _, [] => some []
  | 0, _ :: _ => none
  | fuel + 1, b :: bs =>
    match utf8DecodeOne b bs with
    | none => none
    | some p => charFromCode p.1 (utf8DecodeAux fuel p.2)

/-- Strict UTF-8 decoding of a byte sequence; `none` is a URIError. -/
def utf8Decode (l : List Nat) : Option (List Char) :=
  utf8DecodeAux l.length l

/-- The JS builtin `decodeURIComponent`; `none` models a thrown
URIError. -/
def decodeURIComponent (s : JSString) : Option JSString :=
  match percentToBytes s with
  | some bs => utf8Decode bs
  | none => none

/-! ### Storage keys (src/AsyncCryptoStore.ts lines 26-83) -/

def E2E_PREFIX : JSString := str "crypto."

def END_TO_END_SESSION_PREFIX : JSString := E2E_PREFIX ++ str "sessions/"

def INBOUND_SESSION_PREFIX : JSString := E2E_PREFIX ++ str "inboundgroupsessions/"

def INBOUND_SESSION_WITHHELD_PREFIX : JSString :=
  E2E_PREFIX ++ str "inboundgroupsessions.withheld/"

def KEY_SESSIONS_NEEDING_BACKUP : JSString := E2E_PREFIX ++ str "sessionsneedingbackup"

/-- The source helper building the per-device key namespace of
end-to-end sessions (its source name starts with the word for a leading
key fragment, which cannot be part of an identifier here). -/
def endToEndSessionKeyStart (deviceKey : JSString) : JSString :=
  END_TO_END_SESSION_PREFIX ++ encodeURIComponent deviceKey ++ str "/"

def keyEndToEndSession (deviceKey sessionKey : JSString) : JSString :=
  endToEndSessionKeyStart deviceKey ++ encodeURIComponent sessionKey

def keyEndToEndInboundGroupSession (senderKey sessionId : JSString) : JSString :=
  INBOUND_SESSION_PREFIX ++ encodeURIComponent senderKey ++ str "/" ++
    encodeURIComponent sessionId

def keyEndToEndInboundGroupSessionWithheld (senderKey sessionId : JSString) : JSString :=
  INBOUND_SESSION_WITHHELD_PREFIX ++ encodeURIComponent senderKey ++ str "/" ++
    encodeURIComponent sessionId

/-! ### Store operations (effects on the backend state and results)

Operations that take a grouped-operation context (`txn`) wrap their body
in `Transaction.execute`; under the sequential execution model their net
effect on the backend is the pure function given here.  The transaction
bookkeeping itself is modelled separately below. -/

/-- deleteAllData (lines 161-166): remove every key under "crypto.". -/
def deleteAllData (s : Store) : Store :=
  ((getAllKeys s).filter (fun k => startsWith k E2E_PREFIX)).foldl removeItem s

/-- storeEndToEndSession (lines 367-371). -/
def storeEndToEndSession (s : Store) (deviceKey sessionId : JSString)
    (sessionInfo : Json) : Store :=
  setJsonItem s (keyEndToEndSession deviceKey sessionId) sessionInfo

/-- storeEndToEndInboundGroupSession (lines 515-524): always overwrites. -/
def storeEndToEndInboundGroupSession (s : Store) (senderKey sessionId : JSString)
    (sessionData : Json) : Store :=
  setJsonItem s (keyEndToEndInboundGroupSession senderKey sessionId) sessionData

/-- addEndToEndInboundGroupSession (lines 501-513): reads the key first
and only delegates to the store variant when no (truthy) value is
present. -/
def addEndToEndInboundGroupSession (s : Store) (senderKey sessionId : JSString)
    (sessionData : Json) : Store :=
  if jsonFalsy (getJsonItem s (keyEndToEndInboundGroupSession senderKey sessionId))
  then storeEndToEndInboundGroupSession s senderKey sessionId sessionData
  else s

/-- getEndToEndInboundGroupSession (lines 464-479): the pair of values
handed to the callback (group session, withheld record); absent keys
surface as JS null. -/
def getEndToEndInboundGroupSession (s : Store) (senderKey sessionId : JSString) :
    Json × Json :=
  (getJsonItem s (keyEndToEndInboundGroupSession senderKey sessionId),
   getJsonItem s (keyEndToEndInboundGroupSessionWithheld senderKey sessionId))

/-- The filtered key listing used by every inbound-group-session scan. -/
def igsKeys (s : Store) : List JSString :=
  (getAllKeys s).filter (fun k => startsWith k INBOUND_SESSION_PREFIX)

/-- The filtered key listing used by every end-to-end-session scan. -/
def sessionKeys (s : Store) : List JSString :=
  (getAllKeys s).filter (fun k => startsWith k END_TO_END_SESSION_PREFIX)

/-- ISession record delivered by group-session listings. -/
structure ISession where
  senderKey : JSString
  sessionId : JSString
  sessionData : Json

/-- Decoding of sender key and session id from an inbound-group-session
storage key: `k.split("/")` then `decodeURIComponent` of parts 1 and 2
(lines 486-488). -/
def decodeIGSKey (k : JSString) : Option (JSString × JSString) :=
  match decodeURIComponent (segAt (splitSlash k) 1),
        decodeURIComponent (segAt (splitSlash k) 2) with
  | some senderKey, some sessionId => some (senderKey, sessionId)
  | _, _ => none

/-- The ISession record a group-session listing builds for key `k`. -/
def igsEntryAt (s : Store) (k : JSString) : Option ISession :=
  (decodeIGSKey k).map (fun p => ⟨p.1, p.2, getJsonItem s k⟩)

/-- Per-key loop of getAllEndToEndInboundGroupSessions (lines 485-495):
each matching key is decoded and its value fetched; a decode failure
throws and rejects the transaction (`none`). -/
def igsEntries (s : Store) : List JSString → Option (List ISession)
  | [] => some []
  | k :: rest =>
    match igsEntryAt s k with
    | none => none
    | some e =>
      match igsEntries s rest with
      | none => none
      | some es => some (e :: es)

/-- getAllEndToEndInboundGroupSessions (lines 481-499): the sequence of
arguments the callback receives — one `some` record per matching key,
then the terminal `none` (JS null) sentinel. -/
def getAllEndToEndInboundGroupSessionsCalls (s : Store) :
    Option (List (Option ISession)) :=
  match igsEntries s (igsKeys s) with
  | none => none
  | some es => some (es.map some ++ [none])

/-- Per-key loop of getAllEndToEndSessions (lines 357-363): decode
device key and session id from the key, then fetch the value under the
re-encoded key.  No terminal sentinel is delivered. -/
def allSessionValues (s : Store) : List JSString → Option (List Json)
  | [] => some []
  | k :: rest =>
    match decodeURIComponent (segAt (splitSlash k) 1),
          decodeURIComponent (segAt (splitSlash k) 2) with
    | some deviceKey, some sessionId =>
      match allSessionValues s rest with
      | none => none
      | some vs => some (getJsonItem s (keyEndToEndSession deviceKey sessionId) :: vs)
    | _, _ => none

/-- getAllEndToEndSessions (lines 354-365): the sequence of arguments
the callback receives (one per matching key; the loop body contains no
final null delivery). -/
def getAllEndToEndSessionsCalls (s : Store) : Option (List Json) :=
  allSessionValues s (sessionKeys s)

/-- JS object property assignment `o[k] = v`: overwrite in place when
the property exists, else append. -/
def objInsert (fields : List (JSString × Json)) (k : JSString) (v : Json) :
    List (JSString × Json) :=
  if (fields.map (fun p => p.1)).contains k
  then fields.map (fun p => if p.1 = k then (k, v) else p)
  else fields ++ [(k, v)]

/-- Per-key loop of getEndToEndSessions (lines 345-349): decode the
session id (part 2 of the key), fetch the value under the re-encoded
key, and assign it into the accumulating sessions object. -/
def deviceSessionsObj (s : Store) (deviceKey : JSString) :
    List JSString → List (JSString × Json) → Option (List (JSString × Json))
  | [], acc => some acc
  | k :: rest, acc =>
    match decodeURIComponent (segAt (splitSlash k) 2) with
    | none => none
    | some sessionId =>
      deviceSessionsObj s deviceKey rest
        (objInsert acc sessionId (getJsonItem s (keyEndToEndSession deviceKey sessionId)))

/-- getEndToEndSessions (lines 336-352): the callback receives the
sessions object exactly once (there is no per-entry delivery and no
sentinel), unless a decode failure rejects the transaction. -/
def getEndToEndSessionsCalls (s : Store) (deviceKey : JSString) :
    Option (List (List (JSString × Json))) :=
  match deviceSessionsObj s deviceKey
      ((getAllKeys s).filter (fun k => startsWith k (endToEndSessionKeyStart deviceKey))) [] with
  | none => none
  | some obj => some [obj]

/-- SESSION_BATCH_SIZE.  Modelled from the spec: the fixed batch size of
bulk export, imported by the source from matrix-js-sdk
(lib/crypto/store/base), where its value is 50. -/
def SESSION_BATCH_SIZE : Nat := 50

/-- Loop of getEndToEndSessionsBatch (lines 432-444): falsy values are
logged and skipped; the loop returns as soon as the batch is full. -/
def sessionsBatchLoop (s : Store) : List JSString → List Json → List Json
  | [], acc => acc
  | k :: rest, acc =>
    let v := getJsonItem s k
    if jsonFalsy v then sessionsBatchLoop s rest acc
    else
      let acc2 := acc ++ [v]
      if SESSION_BATCH_SIZE ≤ acc2.length then acc2 else sessionsBatchLoop s rest acc2

/-- getEndToEndSessionsBatch (lines 427-451): `none` is the JS null
result returned when the accumulated batch is empty. -/
def getEndToEndSessionsBatch (s : Store) : Option (List Json) :=
  let result := sessionsBatchLoop s (sessionKeys s) []
  if result.isEmpty then none else some result

/-- The property names reachable on a JS Promise object (own properties:
none; inherited from Promise.prototype and Object.prototype). -/
def promiseProps : List JSString :=
  [str "then", str "catch", str "finally", str "constructor",
   str "toString", str "toLocaleString", str "valueOf",
   str "hasOwnProperty", str "isPrototypeOf", str "propertyIsEnumerable",
   str "__proto__", str "__defineGetter__", str "__defineSetter__",
   str "__lookupGetter__", str "__lookupSetter__"]

/-- The JS expression `k in p` where `p` is a Promise object (line 559
applies `in` to the un-awaited Promise returned by
getSessionsNeedingBackup): property lookup on the promise, true exactly
for the property names of the Promise prototype chain. -/
def jsInPromise (k : JSString) : Bool :=
  promiseProps.contains k

/-- SessionExtended record of the group-session batch. -/
structure SessionExtended where
  senderKey : JSString
  sessionId : JSString
  sessionData : Json
  needsBackup : Bool

/-- Loop of getEndToEndInboundGroupSessionsBatch (lines 549-565): every
matching key contributes one record (no falsy skip), with needsBackup
computed by the `in`-on-a-Promise test; outer `none` models a thrown
decode error. -/
def igsBatchLoop (s : Store) :
    List JSString → List SessionExtended → Option (List SessionExtended)
  | [], acc => some acc
  | k :: rest, acc =>
    match decodeIGSKey k with
    | none => none
    | some p =>
      let acc2 := acc ++ [⟨p.1, p.2, getJsonItem s k, jsInPromise k⟩]
      if SESSION_BATCH_SIZE ≤ acc2.length then some acc2 else igsBatchLoop s rest acc2

/-- getEndToEndInboundGroupSessionsBatch (lines 544-572): inner `none`
is the JS null result for an empty batch; outer `none` a thrown error. -/
def getEndToEndInboundGroupSessionsBatch (s : Store) :
    Option (Option (List SessionExtended)) :=
  match igsBatchLoop s (igsKeys s) [] with
  | none => none
  | some l => some (if l.isEmpty then none else some l)

/-- The membership key the backup bookkeeping uses for a (senderKey,
sessionId) pair (lines 650-663). -/
def backupMapKey (senderKey sessionId : JSString) : JSString :=
  encodeURIComponent senderKey ++ str "/" ++ encodeURIComponent sessionId

/-- `Object.keys`-style field access on the stored membership map:
`(await this._getJsonItem(KEY_SESSIONS_NEEDING_BACKUP)) || {}`.  The map
is only ever written as a JSON object by mark/unmark, so non-object
values (in particular JS null for an absent key, via the `||` fallback)
contribute no fields. -/
def jsonObjFields : Json → List (JSString × Json)
  | .obj fields => fields
  | _ => []

/-- Loop of getSessionsNeedingBackup (lines 615-633): decode each
membership key (parts 0 and 1), join against the live group-session
data, skip (log, not fail) entries whose data is falsy, and break once a
nonzero limit is reached (checked after the push, `limit` 0 disables the
check). -/
def backupLoop (s : Store) (limit : Nat) :
    List (JSString × Json) → List ISession → Option (List ISession)
  | [], acc => some acc
  | (kk, _) :: rest, acc =>
    match decodeURIComponent (segAt (splitSlash kk) 0),
          decodeURIComponent (segAt (splitSlash kk) 1) with
    | some senderKey, some sessionId =>
      let sessionData := getJsonItem s (keyEndToEndInboundGroupSession senderKey sessionId)
      if jsonFalsy sessionData then backupLoop s limit rest acc
      else
        let acc2 := acc ++ [⟨senderKey, sessionId, sessionData⟩]
        if limit ≠ 0 ∧ limit ≤ acc2.length then some acc2
        else backupLoop s limit rest acc2
    | _, _ => none

/-- getSessionsNeedingBackup (lines 610-636). -/
def getSessionsNeedingBackup (s : Store) (limit : Nat) : Option (List ISession) :=
  backupLoop s limit (jsonObjFields (getJsonItem s KEY_SESSIONS_NEEDING_BACKUP)) []

/-- countSessionsNeedingBackup (lines 638-643): the number of fields of
the membership map, with no access to group-session data. -/
def countSessionsNeedingBackup (s : Store) : Nat :=
  (jsonObjFields (getJsonItem s KEY_SESSIONS_NEEDING_BACKUP)).length

/-! ### The Transaction class (lines 85-127)

State machine of the grouped-operation context: an in-flight counter, a
recorded-error slot, and the settlement status of the promise.  Thrown
operation errors are modelled as `Nat` tokens (JS Error objects, which
are truthy, so the `this.error ?` test is `Option.isSome`). -/

structure TxnState where
  numOps : Int
  error : Option Nat
  settled : Option (Option Nat)

/-- A fresh Transaction: counter 0, no error, promise pending
(`settled = none`; `some none` is Resolved, `some (some e)` Rejected
with `e`). -/
def initTxn : TxnState := ⟨0, none, none⟩

/-- The primitive transitions `execute` performs: `opStart` is
onOperationStarted (run synchronously when `execute` is called) and
`opEnd o` is onOperationEnded after the operation finished with outcome
`o` (`none` success, `some e` thrown `e`). -/
inductive TxnEvent where
  | opStart
  | opEnd (outcome : Option Nat)

/-- One transition.  `none` models onOperationStarted throwing "Tried to
start a new operation on a completed transaction" (the resolver was
cleared at settlement).  onOperationEnded records a thrown error
(overwriting the slot), decrements the counter and settles when it
reaches zero: reject with the recorded error if set, else resolve. -/
def txnStep (st : TxnState) : TxnEvent → Option TxnState
  | .opStart =>
    if st.settled.isSome then none
    else some { st with numOps := st.numOps + 1 }
  | .opEnd outcome =>
    let err := match outcome with
      | some e => some e
      | none => st.error
    let n := st.numOps - 1
    if n = 0 then some ⟨n, err, some err⟩ else some ⟨n, err, st.settled⟩

/-- Run a sequence of transitions from a given state. -/
def runTxnFrom (st : TxnState) : List TxnEvent → Option TxnState
  | [] => some st
  | ev :: rest =>
    match txnStep st ev with
    | none => none
    | some st2 => runTxnFrom st2 rest

/-- Run a sequence of transitions on a fresh Transaction (as created by
doTxn, lines 706-713). -/
def runTxn (evs : List TxnEvent) : Option TxnState := runTxnFrom initTxn evs

/-- doTxn's returned promise settles exactly when the underlying
Transaction settles. -/
def doTxnSettles (evs : List TxnEvent) : Prop :=
  ∃ st, runTxn evs = some st ∧ st.settled.isSome

/-- `execute` as a whole (lines 101-110), for a sequentially-run
operation with a backend effect: onOperationStarted (throwing, without
running the operation, if the transaction already settled), then the
operation, then onOperationEnded. -/
def executeTxn (st : TxnState) (s : Store) (op : Store → Store × Option Nat) :
    Option (TxnState × Store) :=
  match txnStep st .opStart with
  | none => none
  | some st1 =>
    let r := op s
    match txnStep st1 (.opEnd r.2) with
    | none => none
    | some st2 => some (st2, r.1)

/-- The event trace of the doTxn usage pattern: the caller's function
registers `n` operations synchronously (all starts happen before any
operation completes), then the operations finish one by one with the
given outcomes. -/
def startsList : Nat → List TxnEvent
  | 0 => []
  | n + 1 => .opStart :: startsList n

/-- The error the recorded-error slot holds after a sequence of
operation outcomes: the error of the last operation that failed. -/
def lastErrorOf (outs : List (Option Nat)) : Option Nat :=
  outs.foldl (fun acc o => match o with | some e => some e | none => acc) none

/-! ### Lemmas: startsWith and splitSlash -/

theorem startsWith_nil (k : JSString) : startsWith k [] = true := by
  cases k <;> rfl

theorem startsWith_append_self (p t : JSString) : startsWith (p ++ t) p = true := by
  induction p with
  | nil => simpa using startsWith_nil t
  | cons c cs ih => simp [startsWith, ih]

theorem startsWith_eq_append (k p : JSString) (h : startsWith k p = true) :
    ∃ t, k = p ++ t := by
  induction p generalizing k with
  | nil => exact ⟨k, rfl⟩
  | cons c cs ih =>
    cases k with
    | nil => simp [startsWith] at h
    | cons a as =>
      simp only [startsWith, Bool.and_eq_true, decide_eq_true_eq] at h
      obtain ⟨t, ht⟩ := ih as h.2
      exact ⟨t, by simp [h.1, ht]⟩

theorem startsWith_cancel (x u v : JSString) :
    startsWith (x ++ u) (x ++ v) = startsWith u v := by
  induction x with
  | nil => rfl
  | cons c cs ih => simp [startsWith, ih]

/-- No character of the string is the hierarchy separator. -/
def slashFree (l : JSString) : Prop := ∀ c ∈ l, c ≠ '/'

theorem splitSlash_ne_nil (l : JSString) : splitSlash l ≠ [] := by
  cases l with
  | nil => simp [splitSlash]
  | cons c rest =>
    cases hs : splitSlash rest with
    | nil => simp [splitSlash, hs]
    | cons seg segs =>
      simp only [splitSlash, hs]
      split <;> simp

theorem splitSlash_noSlash (a : JSString) (h : slashFree a) : splitSlash a = [a] := by
  induction a with
  | nil => rfl
  | cons c cs ih =>
    have hc : c ≠ '/' := h c (by simp)
    have ih2 := ih (fun x hx => h x (by simp [hx]))
    simp [splitSlash, ih2, hc]

theorem splitSlash_append (a t : JSString) (h : slashFree a) :
    splitSlash (a ++ '/' :: t) = a :: splitSlash t := by
  induction a with
  | nil =>
    cases hs : splitSlash t with
    | nil => exact absurd hs (splitSlash_ne_nil t)
    | cons seg segs => simp [splitSlash, hs]
  | cons c cs ih =>
    have hc : c ≠ '/' := h c (by simp)
    have ih2 := ih (fun x hx => h x (by simp [hx]))
    simp only [List.cons_append, splitSlash, List.append_eq, ih2, if_neg hc]

/-! ### Lemmas: encodeURIComponent / decodeURIComponent round trip -/

theorem char_toNat_lt (c : Char) : c.toNat < 1114112 := by
  rcases c.valid with h | h <;>
    simp only [Char.toNat] <;> omega

theorem char_valid_ranges (c : Char) :
    c.toNat < 55296 ∨ (57344 ≤ c.toNat ∧ c.toNat < 1114112) := by
  rcases c.valid with h | h
  · left; simp only [Char.toNat]; omega
  · right; simp only [Char.toNat]; omega

theorem utf8Bytes_lt_256 (c : Char) : ∀ b ∈ utf8Bytes c, b < 256 := by
  intro b hb
  have h1 := char_toNat_lt c
  by_cases ha : c.toNat < 128
  · simp [utf8Bytes, ha] at hb; omega
  · by_cases h2 : c.toNat < 2048
    · simp [utf8Bytes, ha, h2] at hb; rcases hb with h | h <;> omega
    · by_cases h3 : c.toNat < 65536
      · simp [utf8Bytes, ha, h2, h3] at hb; rcases hb with h | h | h <;> omega
      · simp [utf8Bytes, ha, h2, h3] at hb; rcases hb with h | h | h | h <;> omega

theorem hexVal_hexDigitChar : ∀ v, v < 16 → hexVal (hexDigitChar v) = some v := by
  decide

theorem percentToBytes_encByte (b : Nat) (hb : b < 256) (rest : JSString) :
    percentToBytes (encByte b ++ rest) =
      (percentToBytes rest).map (fun bs => b :: bs) := by
  have h1 : hexVal (hexDigitChar (b / 16)) = some (b / 16) :=
    hexVal_hexDigitChar _ (by omega)
  have h2 : hexVal (hexDigitChar (b % 16)) = some (b % 16) :=
    hexVal_hexDigitChar _ (by omega)
  have hb16 : b / 16 * 16 + b % 16 = b := by omega
  simp only [encByte, List.cons_append, List.nil_append, percentToBytes, if_pos rfl, h1, h2]
  cases h : percentToBytes rest <;> simp [h, hb16]

theorem percentToBytes_flat_encByte (l : List Nat) (hl : ∀ b ∈ l, b < 256)
    (rest : JSString) :
    percentToBytes (l.flatMap encByte ++ rest) =
      (percentToBytes rest).map (fun bs => l ++ bs) := by
  induction l with
  | nil => cases h : percentToBytes rest <;> simp [h]
  | cons b bs ih =>
    have hb : b < 256 := hl b (by simp)
    have ih2 := ih (fun x hx => hl x (by simp [hx]))
    simp only [List.flatMap_cons, List.append_assoc]
    rw [percentToBytes_encByte b hb, ih2]
    cases h : percentToBytes rest <;> simp [h]

theorem isUnreservedCode_ne_percent (c : Char) (h : isUnreservedCode c.toNat = true) :
    ¬ c = '%' := by
  intro hc
  subst hc
  simp [isUnreservedCode] at h

theorem percentToBytes_encodeChar (c : Char) (rest : JSString) :
    percentToBytes (encodeChar c ++ rest) =
      (percentToBytes rest).map (fun bs => utf8Bytes c ++ bs) := by
  by_cases h : isUnreservedCode c.toNat = true
  · have hne := isUnreservedCode_ne_percent c h
    simp only [encodeChar, if_pos h, List.singleton_append]
    show percentToBytes (c :: rest) = _
    rw [percentToBytes.eq_def]
    simp only [if_neg hne]
    cases h2 : percentToBytes rest <;> simp [h2]
  · simp only [encodeChar, if_neg h]
    exact percentToBytes_flat_encByte _ (utf8Bytes_lt_256 c) rest

theorem percentToBytes_encode_append (s rest : JSString) :
    percentToBytes (encodeURIComponent s ++ rest) =
      (percentToBytes rest).map (fun bs => s.flatMap utf8Bytes ++ bs) := by
  induction s with
  | nil => cases h : percentToBytes rest <;> simp [encodeURIComponent, h]
  | cons c cs ih =>
    simp only [encodeURIComponent, List.flatMap_cons, List.append_assoc]
    rw [percentToBytes_encodeChar]
    show (percentToBytes (encodeURIComponent cs ++ rest)).map _ = _
    rw [ih]
    cases h : percentToBytes rest <;> simp [h]

theorem percentToBytes_encode (s : JSString) :
    percentToBytes (encodeURIComponent s) = some (s.flatMap utf8Bytes) := by
  have h := percentToBytes_encode_append s []
  simpa [percentToBytes] using h

theorem utf8DecodeOne_length (b : Nat) (bs : List Nat) (p : Nat × List Nat)
    (h : utf8DecodeOne b bs = some p) : p.2.length ≤ bs.length := by
  unfold utf8DecodeOne at h
  split_ifs at h
  · obtain rfl : (b, bs) = p := by injection h
    simp
  · rcases bs with _ | ⟨b1, bs1⟩
    · exact absurd h (by simp)
    · dsimp only at h
      split_ifs at h
      obtain rfl : ((b - 192) * 64 + (b1 - 128), bs1) = p := by injection h
      simp
  · rcases bs with _ | ⟨b1, bs1⟩
    · exact absurd h (by simp)
    · rcases bs1 with _ | ⟨b2, bs2⟩
      · exact absurd h (by simp)
      · dsimp only at h
        split_ifs at h
        obtain rfl : ((b - 224) * 4096 + (b1 - 128) * 64 + (b2 - 128), bs2) = p := by
          injection h
        simp only [List.length_cons]
        omega
  · rcases bs with _ | ⟨b1, bs1⟩
    · exact absurd h (by simp)
    · rcases bs1 with _ | ⟨b2, bs2⟩
      · exact absurd h (by simp)
      · rcases bs2 with _ | ⟨b3, bs3⟩
        · exact absurd h (by simp)
        · dsimp only at h
          split_ifs at h
          obtain rfl :
              ((b - 240) * 262144 + (b1 - 128) * 4096 + (b2 - 128) * 64 + (b3 - 128), bs3)
                = p := by injection h
          simp only [List.length_cons]
          omega

theorem utf8DecodeAux_fuel (f f2 : Nat) (l : List Nat) (h1 : l.length <= f)
    (h2 : l.length <= f2) : utf8DecodeAux f l = utf8DecodeAux f2 l := by
  induction f generalizing f2 l with
  | zero =>
    rcases l with _ | ⟨b, bs⟩
    · cases f2 <;> rfl
    · simp at h1
  | succ f ih =>
    rcases l with _ | ⟨b, bs⟩
    · cases f2 <;> rfl
    · rcases f2 with _ | f2
      · simp at h2
      · simp only [utf8DecodeAux]
        cases hone : utf8DecodeOne b bs with
        | none => rfl
        | some p =>
          have hp := utf8DecodeOne_length b bs p hone
          simp only [List.length_cons] at h1 h2
          dsimp only
          rw [ih f2 p.2 (by omega) (by omega)]

theorem utf8DecodeOne_encoded (c : Char) (bs : List Nat) :
    ∃ hd tl, utf8Bytes c = hd :: tl ∧
      utf8DecodeOne hd (tl ++ bs) = some (c.toNat, bs) := by
  have hlt := char_toNat_lt c
  by_cases h1 : c.toNat < 128
  · refine ⟨c.toNat, [], by simp [utf8Bytes, h1], ?_⟩
    unfold utf8DecodeOne
    rw [if_pos h1]
    simp
  · by_cases h2 : c.toNat < 2048
    · refine ⟨192 + c.toNat / 64, [128 + c.toNat % 64],
        by simp [utf8Bytes, h1, h2], ?_⟩
      unfold utf8DecodeOne
      rw [if_neg (by omega), if_neg (by omega), if_pos (by omega)]
      dsimp only [List.cons_append]
      rw [if_pos (by omega : 128 ≤ 128 + c.toNat % 64 ∧ 128 + c.toNat % 64 < 192)]
      rw [if_pos (by omega : 128 ≤ (192 + c.toNat / 64 - 192) * 64 + (128 + c.toNat % 64 - 128))]
      have he : (192 + c.toNat / 64 - 192) * 64 + (128 + c.toNat % 64 - 128) = c.toNat := by
        omega
      rw [he]
      simp
    · by_cases h3 : c.toNat < 65536
      · refine ⟨224 + c.toNat / 4096, [128 + c.toNat / 64 % 64, 128 + c.toNat % 64],
          by simp [utf8Bytes, h1, h2, h3], ?_⟩
        unfold utf8DecodeOne
        rw [if_neg (by omega), if_neg (by omega), if_neg (by omega), if_pos (by omega)]
        dsimp only [List.cons_append]
        rw [if_pos (by omega :
          (128 ≤ 128 + c.toNat / 64 % 64 ∧ 128 + c.toNat / 64 % 64 < 192) ∧
            128 ≤ 128 + c.toNat % 64 ∧ 128 + c.toNat % 64 < 192)]
        rw [if_pos (by omega : 2048 ≤ (224 + c.toNat / 4096 - 224) * 4096 +
          (128 + c.toNat / 64 % 64 - 128) * 64 + (128 + c.toNat % 64 - 128))]
        have he : (224 + c.toNat / 4096 - 224) * 4096 +
            (128 + c.toNat / 64 % 64 - 128) * 64 + (128 + c.toNat % 64 - 128) = c.toNat := by
          omega
        rw [he]
        simp
      · refine ⟨240 + c.toNat / 262144,
          [128 + c.toNat / 4096 % 64, 128 + c.toNat / 64 % 64, 128 + c.toNat % 64],
          by simp [utf8Bytes, h1, h2, h3], ?_⟩
        unfold utf8DecodeOne
        rw [if_neg (by omega), if_neg (by omega), if_neg (by omega), if_neg (by omega),
          if_pos (by omega)]
        dsimp only [List.cons_append]
        rw [if_pos (by omega :
          (128 ≤ 128 + c.toNat / 4096 % 64 ∧ 128 + c.toNat / 4096 % 64 < 192) ∧
            (128 ≤ 128 + c.toNat / 64 % 64 ∧ 128 + c.toNat / 64 % 64 < 192) ∧
            128 ≤ 128 + c.toNat % 64 ∧ 128 + c.toNat % 64 < 192)]
        rw [if_pos (by omega : 65536 ≤ (240 + c.toNat / 262144 - 240) * 262144 +
          (128 + c.toNat / 4096 % 64 - 128) * 4096 +
          (128 + c.toNat / 64 % 64 - 128) * 64 + (128 + c.toNat % 64 - 128))]
        have he : (240 + c.toNat / 262144 - 240) * 262144 +
            (128 + c.toNat / 4096 % 64 - 128) * 4096 +
            (128 + c.toNat / 64 % 64 - 128) * 64 + (128 + c.toNat % 64 - 128) = c.toNat := by
          omega
        rw [he]
        simp

theorem utf8Decode_bytes (c : Char) (bs : List Nat) :
    utf8Decode (utf8Bytes c ++ bs) = (utf8Decode bs).map (fun cs => c :: cs) := by
  obtain ⟨hd, tl, hsplit, hone⟩ := utf8DecodeOne_encoded c bs
  have hv := char_valid_ranges c
  rw [utf8Decode, utf8Decode, hsplit]
  simp only [List.cons_append, List.length_cons]
  rw [utf8DecodeAux]
  rw [hone]
  dsimp only
  rw [utf8DecodeAux_fuel (tl ++ bs).length bs.length bs (by simp) (le_refl _)]
  simp [charFromCode, if_pos hv, Char.ofNat_toNat]

theorem utf8Decode_flat (s : List Char) :
    utf8Decode (s.flatMap utf8Bytes) = some s := by
  induction s with
  | nil => rfl
  | cons c cs ih =>
    simp only [List.flatMap_cons]
    rw [utf8Decode_bytes, ih]
    rfl

theorem decode_encode (s : JSString) :
    decodeURIComponent (encodeURIComponent s) = some s := by
  unfold decodeURIComponent
  rw [percentToBytes_encode]
  exact utf8Decode_flat s

theorem encode_inj (a b : JSString) (h : encodeURIComponent a = encodeURIComponent b) :
    a = b := by
  have ha := decode_encode a
  rw [h, decode_encode b] at ha
  injection ha with ha
  exact ha.symm

theorem hexDigitChar_ne_slash : ∀ v, v < 16 → hexDigitChar v ≠ '/' := by
  decide

theorem slashFree_encode (s : JSString) : slashFree (encodeURIComponent s) := by
  intro ch hch
  simp only [encodeURIComponent, List.mem_flatMap] at hch
  obtain ⟨c, hc, hch⟩ := hch
  by_cases h : isUnreservedCode c.toNat = true
  · simp only [encodeChar, if_pos h, List.mem_singleton] at hch
    subst hch
    intro hcs
    subst hcs
    exact absurd h (by decide)
  · simp only [encodeChar, if_neg h, List.mem_flatMap] at hch
    obtain ⟨b, hb, hch⟩ := hch
    have hb256 := utf8Bytes_lt_256 c b hb
    simp only [encByte, List.mem_cons, List.not_mem_nil, or_false] at hch
    rcases hch with rfl | rfl | rfl
    · decide
    · exact hexDigitChar_ne_slash _ (by omega)
    · exact hexDigitChar_ne_slash _ (by omega)

/-! ### Lemmas: structure of the canonical storage keys -/

/-- The inbound-group-session namespace tag without its trailing
separator. -/
def igsStem : JSString := str "crypto.inboundgroupsessions"

/-- The end-to-end-session namespace tag without its trailing
separator. -/
def sessStem : JSString := str "crypto.sessions"

theorem igsStem_slashFree : slashFree igsStem := by
  show ∀ c ∈ igsStem, c ≠ '/'
  decide

theorem sessStem_slashFree : slashFree sessStem := by
  show ∀ c ∈ sessStem, c ≠ '/'
  decide

theorem inbound_ns_eq : INBOUND_SESSION_PREFIX = igsStem ++ ['/'] := by decide

theorem session_ns_eq : END_TO_END_SESSION_PREFIX = sessStem ++ ['/'] := by decide

theorem keyIGS_shape (a b : JSString) :
    keyEndToEndInboundGroupSession a b =
      igsStem ++ '/' :: (encodeURIComponent a ++ '/' :: encodeURIComponent b) := by
  simp [keyEndToEndInboundGroupSession, inbound_ns_eq, str, List.append_assoc]

theorem keySession_shape (a b : JSString) :
    keyEndToEndSession a b =
      sessStem ++ '/' :: (encodeURIComponent a ++ '/' :: encodeURIComponent b) := by
  simp [keyEndToEndSession, endToEndSessionKeyStart, session_ns_eq, str, List.append_assoc]

theorem splitSlash_keyIGS (a b : JSString) :
    splitSlash (keyEndToEndInboundGroupSession a b) =
      [igsStem, encodeURIComponent a, encodeURIComponent b] := by
  rw [keyIGS_shape, splitSlash_append _ _ igsStem_slashFree,
    splitSlash_append _ _ (slashFree_encode a), splitSlash_noSlash _ (slashFree_encode b)]

theorem splitSlash_keySession (a b : JSString) :
    splitSlash (keyEndToEndSession a b) =
      [sessStem, encodeURIComponent a, encodeURIComponent b] := by
  rw [keySession_shape, splitSlash_append _ _ sessStem_slashFree,
    splitSlash_append _ _ (slashFree_encode a), splitSlash_noSlash _ (slashFree_encode b)]

theorem decodeIGSKey_canonical (a b : JSString) :
    decodeIGSKey (keyEndToEndInboundGroupSession a b) = some (a, b) := by
  simp [decodeIGSKey, splitSlash_keyIGS, segAt, decode_encode]

theorem keyIGS_startsWith (a b : JSString) :
    startsWith (keyEndToEndInboundGroupSession a b) INBOUND_SESSION_PREFIX = true := by
  have h : keyEndToEndInboundGroupSession a b =
      INBOUND_SESSION_PREFIX ++ (encodeURIComponent a ++ '/' :: encodeURIComponent b) := by
    rw [keyIGS_shape, inbound_ns_eq]
    simp
  rw [h]
  exact startsWith_append_self _ _

theorem keySession_startsWith (a b : JSString) :
    startsWith (keyEndToEndSession a b) END_TO_END_SESSION_PREFIX = true := by
  have h : keyEndToEndSession a b =
      END_TO_END_SESSION_PREFIX ++ (encodeURIComponent a ++ '/' :: encodeURIComponent b) := by
    rw [keySession_shape, session_ns_eq]
    simp
  rw [h]
  exact startsWith_append_self _ _

/-! ### Lemmas: the backend store -/

instance : Inhabited Json := ⟨Json.null⟩

theorem getItem_setItem (s : Store) (k : JSString) (v : Json) (k2 : JSString) :
    getItem (setItem s k v) k2 = if k2 = k then some v else getItem s k2 := by
  induction s with
  | nil => simp [setItem, getItem]
  | cons p rest ih =>
    obtain ⟨pk, pv⟩ := p
    by_cases h : k = pk
    · subst h
      simp only [setItem, if_pos rfl, getItem]
      split_ifs <;> simp_all
    · simp only [setItem, if_neg h, getItem, ih]
      split_ifs <;> simp_all

theorem getItem_removeItem (s : Store) (k k2 : JSString) :
    getItem (removeItem s k) k2 = if k2 = k then none else getItem s k2 := by
  induction s with
  | nil => simp [removeItem, getItem]
  | cons p rest ih =>
    obtain ⟨pk, pv⟩ := p
    by_cases h : k = pk
    · subst h
      simp only [removeItem, if_pos rfl, getItem, ih]
      split_ifs <;> simp_all
    · simp only [removeItem, if_neg h, getItem, ih]
      split_ifs <;> simp_all

theorem getItem_foldl_removeItem (ks : List JSString) (s : Store) (k2 : JSString) :
    getItem (ks.foldl removeItem s) k2 = if k2 ∈ ks then none else getItem s k2 := by
  induction ks generalizing s with
  | nil => simp
  | cons k ks ih =>
    show getItem (List.foldl removeItem (removeItem s k) ks) k2 = _
    rw [ih (removeItem s k), getItem_removeItem]
    clear ih
    simp only [List.mem_cons]
    split_ifs <;> simp_all

instance : Inhabited Json := ⟨Json.null⟩

theorem mem_getAllKeys_of_getItem (s : Store) (k : JSString) (v : Json)
    (h : getItem s k = some v) : k ∈ getAllKeys s := by
  induction s with
  | nil => simp [getItem] at h
  | cons p rest ih =>
    obtain ⟨pk, pv⟩ := p
    simp only [getItem] at h
    simp only [getAllKeys, List.map_cons, List.mem_cons]
    by_cases h2 : k = pk
    · exact Or.inl h2
    · rw [if_neg h2] at h
      exact Or.inr (ih h)

theorem mem_getAllKeys_setItem (s : Store) (k : JSString) (v : Json) (k2 : JSString)
    (h : k2 ∈ getAllKeys (setItem s k v)) : k2 ∈ getAllKeys s ∨ k2 = k := by
  induction s with
  | nil =>
    simp only [setItem, getAllKeys, List.map_cons, List.map_nil, List.mem_singleton] at h
    exact Or.inr h
  | cons p rest ih =>
    obtain ⟨pk, pv⟩ := p
    simp only [getAllKeys, List.map_cons, List.mem_cons]
    by_cases hk : k = pk
    · subst hk
      have hs : setItem ((k, pv) :: rest) k v = (k, v) :: rest := by
        simp [setItem]
      rw [hs] at h
      simp only [getAllKeys, List.map_cons, List.mem_cons] at h
      rcases h with h | h
      · exact Or.inl (Or.inl h)
      · exact Or.inl (Or.inr h)
    · simp only [setItem, if_neg hk, getAllKeys, List.map_cons, List.mem_cons] at h
      rcases h with h | h
      · exact Or.inl (Or.inl h)
      · rcases ih h with h2 | h2
        · exact Or.inl (Or.inr h2)
        · exact Or.inr h2

theorem getItem_setItem_self (s : Store) (k : JSString) (v : Json) :
    getItem (setItem s k v) k = some v := by
  rw [getItem_setItem, if_pos rfl]

theorem mem_getAllKeys_setItem_self (s : Store) (k : JSString) (v : Json) :
    k ∈ getAllKeys (setItem s k v) :=
  mem_getAllKeys_of_getItem _ _ _ (getItem_setItem_self s k v)

theorem getJsonItem_setJsonItem (s : Store) (k : JSString) (v : Json) (k2 : JSString) :
    getJsonItem (setJsonItem s k v) k2 =
      if k2 = k then v else getJsonItem s k2 := by
  simp only [getJsonItem, setJsonItem, getItem_setItem]
  split_ifs <;> rfl

/-! ### Lemmas: the Transaction state machine -/

/-- The recorded-error slot after folding a sequence of operation
outcomes into an initial slot value: each failure overwrites the slot. -/
def errFoldFrom (er : Option Nat) (outs : List (Option Nat)) : Option Nat :=
  outs.foldl (fun acc o => match o with | some e => some e | none => acc) er

theorem lastErrorOf_eq_errFoldFrom (outs : List (Option Nat)) :
    lastErrorOf outs = errFoldFrom none outs := rfl

theorem txnStep_start_settled (st st2 : TxnState)
    (h : txnStep st .opStart = some st2) :
    st2.settled = st.settled ∧ st.settled.isSome = false := by
  unfold txnStep at h
  by_cases hs : st.settled.isSome = true
  · rw [if_pos hs] at h
    exact absurd h (by simp)
  · rw [if_neg hs] at h
    injection h with h
    subst h
    exact ⟨rfl, by simpa using hs⟩

theorem runTxnFrom_settle_needs_end (evs : List TxnEvent) (st0 st : TxnState)
    (h : runTxnFrom st0 evs = some st) (hset : st.settled.isSome = true) :
    st0.settled.isSome = true ∨ ∃ out, TxnEvent.opEnd out ∈ evs := by
  induction evs generalizing st0 with
  | nil =>
    simp only [runTxnFrom, Option.some.injEq] at h
    subst h
    exact Or.inl hset
  | cons ev rest ih =>
    simp only [runTxnFrom] at h
    cases hstep : txnStep st0 ev with
    | none =>
      rw [hstep] at h
      exact absurd h (by simp)
    | some st1 =>
      rw [hstep] at h
      rcases ih st1 h with h2 | h2
      · cases ev with
        | opStart =>
          obtain ⟨heq, _⟩ := txnStep_start_settled st0 st1 hstep
          rw [heq] at h2
          exact Or.inl h2
        | opEnd out => exact Or.inr ⟨out, by simp⟩
      · obtain ⟨out, ho⟩ := h2
        exact Or.inr ⟨out, by simp [ho]⟩

theorem runTxnFrom_append (a b : List TxnEvent) (st : TxnState) :
    runTxnFrom st (a ++ b) =
      match runTxnFrom st a with
      | none => none
      | some st2 => runTxnFrom st2 b := by
  induction a generalizing st with
  | nil => simp [runTxnFrom]
  | cons ev rest ih =>
    simp only [List.cons_append, runTxnFrom]
    cases txnStep st ev with
    | none => rfl
    | some st2 => exact ih st2

theorem runTxnFrom_starts (n : Nat) (st : TxnState) (h : st.settled = none) :
    runTxnFrom st (startsList n) = some ⟨st.numOps + n, st.error, none⟩ := by
  induction n generalizing st with
  | zero =>
    obtain ⟨no, er, se⟩ := st
    subst h
    simp [startsList, runTxnFrom]
  | succ n ih =>
    obtain ⟨no, er, se⟩ := st
    subst h
    simp only [startsList, runTxnFrom, txnStep, Option.isSome_none, Bool.false_eq_true,
      if_false]
    rw [ih ⟨no + 1, er, none⟩ rfl]
    simp only [Option.some.injEq, TxnState.mk.injEq, and_true, true_and]
    omega

theorem runTxnFrom_ends (outs : List (Option Nat)) (no : Int) (er : Option Nat)
    (hne : outs ≠ []) (hcount : no = outs.length) :
    runTxnFrom ⟨no, er, none⟩ (outs.map TxnEvent.opEnd) =
      some ⟨0, errFoldFrom er outs, some (errFoldFrom er outs)⟩ := by
  induction outs generalizing no er with
  | nil => exact absurd rfl hne
  | cons o rest ih =>
    by_cases hr : rest = []
    · subst hr
      simp only [List.length_cons, List.length_nil] at hcount
      simp only [List.map_cons, List.map_nil, runTxnFrom, txnStep]
      rw [if_pos (by omega : no - 1 = 0)]
      simp only [runTxnFrom, errFoldFrom, List.foldl_cons, List.foldl_nil]
      rw [show no - 1 = (0 : Int) from by omega]
    · simp only [List.length_cons] at hcount
      have hlen : 1 ≤ rest.length := by
        cases rest with
        | nil => exact absurd rfl hr
        | cons a b => simp
      cases o with
      | some e =>
        simp only [List.map_cons, runTxnFrom, txnStep]
        rw [if_neg (by omega : ¬ no - 1 = 0)]
        dsimp only
        rw [ih (no - 1) (some e) hr (by omega)]
        rfl
      | none =>
        simp only [List.map_cons, runTxnFrom, txnStep]
        rw [if_neg (by omega : ¬ no - 1 = 0)]
        dsimp only
        rw [ih (no - 1) er hr (by omega)]
        rfl

/-! ### Claim theorems -/

/-- C1 counterexample: with two grouped operations that both fail (the
first with error 1, the second with error 2), the transaction settles
Rejected with error 2 — the error of the LAST operation that failed —
not with error 1 as the claim states: `this.error = e` in `execute`
overwrites the slot on every failure. -/
theorem txn_rejects_second_error_counterexample :
    runTxn [TxnEvent.opStart, TxnEvent.opStart,
        TxnEvent.opEnd (some 1), TxnEvent.opEnd (some 2)] =
      some ⟨0, some 2, some (some 2)⟩ ∧
    some (some (2 : Nat)) ≠ some (some (1 : Nat)) :=
  ⟨rfl, by decide⟩

/-- C1 (amended): for a transaction whose `n` operations are all
registered before any completes (the doTxn usage pattern) and then
finish with the given outcomes: when the in-flight counter returns to
zero the promise settles, Rejected with the error of the LAST operation
that failed (each failure overwrites the recorded error), and Resolved
when no operation failed (`lastErrorOf outs = none`). -/
theorem transaction_settles_with_last_error (outs : List (Option Nat))
    (hne : outs ≠ []) :
    runTxn (startsList outs.length ++ outs.map TxnEvent.opEnd) =
      some ⟨0, lastErrorOf outs, some (lastErrorOf outs)⟩ := by
  unfold runTxn
  rw [runTxnFrom_append]
  rw [runTxnFrom_starts outs.length initTxn rfl]
  have h0 : (initTxn.numOps + (outs.length : Int)) = (outs.length : Int) := by
    simp [initTxn]
  rw [h0]
  dsimp only
  rw [runTxnFrom_ends outs outs.length initTxn.error hne rfl]
  rfl

theorem transaction_settles_with_last_error_witness :
    ([some 5, none] : List (Option Nat)) ≠ [] ∧
    runTxn (startsList ([some 5, none] : List (Option Nat)).length
        ++ ([some 5, none] : List (Option Nat)).map TxnEvent.opEnd) =
      some ⟨0, lastErrorOf [some 5, none], some (lastErrorOf [some 5, none])⟩ :=
  ⟨by decide, transaction_settles_with_last_error [some 5, none] (by decide)⟩

/-- C7: once a Transaction has settled (resolver cleared), any further
`execute` throws "Tried to start a new operation on a completed
transaction" before running the registered operation: the combined step
fails for EVERY operation `op`, whose store effect never happens. -/
theorem execute_after_settled_throws (st : TxnState) (s : Store)
    (op : Store → Store × Option Nat) (h : st.settled.isSome = true) :
    executeTxn st s op = none := by
  unfold executeTxn txnStep
  rw [if_pos h]

theorem execute_after_settled_throws_witness :
    (⟨0, none, some none⟩ : TxnState).settled.isSome = true ∧
    runTxn [TxnEvent.opStart, TxnEvent.opEnd none] = some ⟨0, none, some none⟩ ∧
    executeTxn ⟨0, none, some none⟩ []
      (fun s => (setJsonItem s (str "crypto.account") Json.null, none)) = none :=
  ⟨rfl, rfl, execute_after_settled_throws _ _ _ rfl⟩

/-- C10: a doTxn whose function registers zero operations never
settles: the fresh Transaction's promise is pending, and settlement can
only be produced by an onOperationEnded transition, so a trace with no
operation-end event — in particular the empty trace — leaves the
promise pending forever. -/
theorem doTxn_zero_ops_never_settles :
    (runTxn [] = some initTxn ∧ initTxn.settled = none) ∧
    ∀ evs : List TxnEvent, doTxnSettles evs → ∃ out, TxnEvent.opEnd out ∈ evs := by
  refine ⟨⟨rfl, rfl⟩, ?_⟩
  intro evs hsettle
  obtain ⟨st, hrun, hset⟩ := hsettle
  rcases runTxnFrom_settle_needs_end evs initTxn st hrun hset with h | h
  · simp [initTxn] at h
  · exact h

theorem doTxn_zero_ops_never_settles_witness :
    doTxnSettles [TxnEvent.opStart, TxnEvent.opEnd none] ∧
    (∃ out, TxnEvent.opEnd out ∈ [TxnEvent.opStart, TxnEvent.opEnd none]) :=
  ⟨⟨⟨0, none, some none⟩, rfl, rfl⟩,
   doTxn_zero_ops_never_settles.2 _ ⟨⟨0, none, some none⟩, rfl, rfl⟩⟩

/-- C5: deleteAllData removes every backend key that starts with the
root tag "crypto." and leaves every other key present with its value
unchanged. -/
theorem deleteAllData_frame (s : Store) (k : JSString) :
    getItem (deleteAllData s) k =
      if startsWith k E2E_PREFIX = true then none else getItem s k := by
  unfold deleteAllData
  rw [getItem_foldl_removeItem]
  by_cases hp : startsWith k E2E_PREFIX = true
  · rw [if_pos hp]
    by_cases hm : k ∈ getAllKeys s
    · rw [if_pos (List.mem_filter.mpr ⟨hm, hp⟩)]
    · rw [if_neg (fun hmem => hm (List.mem_filter.mp hmem).1)]
      cases hg : getItem s k with
      | none => rfl
      | some v => exact absurd (mem_getAllKeys_of_getItem s k v hg) hm
  · rw [if_neg hp]
    rw [if_neg (show k ∉ List.filter (fun k => startsWith k E2E_PREFIX) (getAllKeys s)
      from fun hmem => hp (List.mem_filter.mp hmem).2)]

/-- C3: addEndToEndInboundGroupSession is write-once.  From a store
with no value under the group-session key (the code's own notion of
"present" is JS truthiness, and the typed session payloads are JSON
objects, always truthy), adding V1 and then adding V2 under the same
senderKey/sessionId leaves V1 as the value a subsequent
getEndToEndInboundGroupSession returns: the second add is skipped. -/
theorem addEndToEndInboundGroupSession_write_once
    (s : Store) (senderKey sessionId : JSString) (V1 V2 : Json)
    (habsent : jsonFalsy
      (getJsonItem s (keyEndToEndInboundGroupSession senderKey sessionId)) = true)
    (htruthy : jsonFalsy V1 = false) :
    (getEndToEndInboundGroupSession
      (addEndToEndInboundGroupSession
        (addEndToEndInboundGroupSession s senderKey sessionId V1)
        senderKey sessionId V2)
      senderKey sessionId).1 = V1 := by
  unfold addEndToEndInboundGroupSession storeEndToEndInboundGroupSession
  rw [if_pos habsent]
  rw [getJsonItem_setJsonItem, if_pos rfl, htruthy]
  simp only [Bool.false_eq_true, if_false]
  unfold getEndToEndInboundGroupSession
  rw [getJsonItem_setJsonItem, if_pos rfl]

theorem addEndToEndInboundGroupSession_write_once_witness :
    jsonFalsy (getJsonItem []
      (keyEndToEndInboundGroupSession (str "senderkey1") (str "sessid1"))) = true ∧
    jsonFalsy (Json.obj [(str "session", Json.str (str "some-session"))]) = false ∧
    (getEndToEndInboundGroupSession
      (addEndToEndInboundGroupSession
        (addEndToEndInboundGroupSession [] (str "senderkey1") (str "sessid1")
          (Json.obj [(str "session", Json.str (str "some-session"))]))
        (str "senderkey1") (str "sessid1")
        (Json.obj [(str "session", Json.str (str "another-session"))]))
      (str "senderkey1") (str "sessid1")).1 =
      Json.obj [(str "session", Json.str (str "some-session"))] :=
  ⟨rfl, rfl,
   addEndToEndInboundGroupSession_write_once [] (str "senderkey1") (str "sessid1")
     (Json.obj [(str "session", Json.str (str "some-session"))])
     (Json.obj [(str "session", Json.str (str "another-session"))]) rfl rfl⟩

theorem mem_promiseProps_not_inbound (k : JSString) (hk : k ∈ promiseProps) :
    startsWith k INBOUND_SESSION_PREFIX = false := by
  fin_cases hk <;> decide

theorem jsInPromise_inbound_false (k : JSString)
    (h : startsWith k INBOUND_SESSION_PREFIX = true) : jsInPromise k = false := by
  unfold jsInPromise
  by_contra hc
  rw [Bool.not_eq_false] at hc
  have hm : k ∈ promiseProps := by simpa using hc
  rw [mem_promiseProps_not_inbound k hm] at h
  exact absurd h (by simp)

theorem igsBatchLoop_needsBackup_false (s : Store) (ks : List JSString)
    (acc l : List SessionExtended)
    (hks : ∀ k ∈ ks, startsWith k INBOUND_SESSION_PREFIX = true)
    (hacc : ∀ e ∈ acc, e.needsBackup = false)
    (h : igsBatchLoop s ks acc = some l) : ∀ e ∈ l, e.needsBackup = false := by
  induction ks generalizing acc with
  | nil =>
    simp only [igsBatchLoop, Option.some.injEq] at h
    subst h
    exact hacc
  | cons k rest ih =>
    simp only [igsBatchLoop] at h
    cases hdec : decodeIGSKey k with
    | none =>
      rw [hdec] at h
      exact absurd h (by simp)
    | some p =>
      rw [hdec] at h
      dsimp only at h
      have hacc2 : ∀ e ∈ acc ++ [(⟨p.1, p.2, getJsonItem s k, jsInPromise k⟩ : SessionExtended)],
          e.needsBackup = false := by
        intro e he
        rcases List.mem_append.mp he with he | he
        · exact hacc e he
        · rw [List.mem_singleton] at he
          subst he
          exact jsInPromise_inbound_false k (hks k (by simp))
      split_ifs at h
      · injection h with h
        subst h
        exact hacc2
      · exact ih _ (fun x hx => hks x (by simp [hx])) hacc2 h

/-- C9: every record returned by getEndToEndInboundGroupSessionsBatch
has needsBackup = false, whatever the stored backup-membership map is:
the test `k in this.getSessionsNeedingBackup(0)` checks property names
of an un-awaited Promise object, and no storage key under
"crypto.inboundgroupsessions/" is such a property name. -/
theorem igsBatch_needsBackup_always_false (s : Store) (l : List SessionExtended)
    (h : getEndToEndInboundGroupSessionsBatch s = some (some l)) :
    ∀ e ∈ l, e.needsBackup = false := by
  unfold getEndToEndInboundGroupSessionsBatch at h
  cases hloop : igsBatchLoop s (igsKeys s) [] with
  | none =>
    rw [hloop] at h
    exact absurd h (by simp)
  | some l2 =>
    rw [hloop] at h
    have hl2 : ∀ e ∈ l2, e.needsBackup = false := by
      refine igsBatchLoop_needsBackup_false s (igsKeys s) [] l2 ?_ (by simp) hloop
      intro k hk
      exact (List.mem_filter.mp hk).2
    dsimp only at h
    split_ifs at h
    · exact absurd h (by simp)
    · injection h with h
      injection h with h
      subst h
      exact hl2

theorem igsBatch_needsBackup_always_false_witness :
    getEndToEndInboundGroupSessionsBatch
        [(keyEndToEndInboundGroupSession (str "a") (str "b"), Json.obj [])] =
      some (some [⟨str "a", str "b", Json.obj [], false⟩]) ∧
    ∀ e ∈ [(⟨str "a", str "b", Json.obj [], false⟩ : SessionExtended)],
      e.needsBackup = false :=
  ⟨rfl, igsBatch_needsBackup_always_false
    [(keyEndToEndInboundGroupSession (str "a") (str "b"), Json.obj [])] _ rfl⟩

theorem igsEntries_eq_filterMap (s : Store) (ks : List JSString)
    (h : ∀ k ∈ ks, (igsEntryAt s k).isSome = true) :
    igsEntries s ks = some (ks.filterMap (igsEntryAt s)) ∧
      (ks.filterMap (igsEntryAt s)).length = ks.length := by
  induction ks with
  | nil => exact ⟨rfl, rfl⟩
  | cons k rest ih =>
    obtain ⟨ih1, ih2⟩ := ih (fun x hx => h x (by simp [hx]))
    cases he : igsEntryAt s k with
    | none =>
      have hk := h k (by simp)
      rw [he] at hk
      exact absurd hk (by simp)
    | some e =>
      have h1 : igsEntries s (k :: rest) = some (e :: rest.filterMap (igsEntryAt s)) := by
        simp only [igsEntries, he, ih1]
      have h2 : (k :: rest).filterMap (igsEntryAt s) = e :: rest.filterMap (igsEntryAt s) := by
        simp [List.filterMap_cons, he]
      rw [h1, h2]
      exact ⟨rfl, by simp [ih2]⟩

/-- C4: round-trip under escaping.  For every senderKey and sessionId
(slashes included) and any store whose inbound-group-session namespace
is canonically keyed: after storeEndToEndInboundGroupSession, the
getAllEndToEndInboundGroupSessions listing succeeds, delivering one
record per matching key followed by the null sentinel, one delivered
record carries exactly the original senderKey, sessionId and data, and
getEndToEndInboundGroupSession returns the stored data. -/
theorem store_then_list_roundtrip (s : Store) (senderKey sessionId : JSString)
    (data : Json)
    (hwf : ∀ k ∈ getAllKeys s, startsWith k INBOUND_SESSION_PREFIX = true →
      ∃ a b, k = keyEndToEndInboundGroupSession a b) :
    (∃ es : List ISession, getAllEndToEndInboundGroupSessionsCalls
        (storeEndToEndInboundGroupSession s senderKey sessionId data) =
        some (es.map some ++ [none]) ∧
      (⟨senderKey, sessionId, data⟩ : ISession) ∈ es) ∧
    (getEndToEndInboundGroupSession
      (storeEndToEndInboundGroupSession s senderKey sessionId data)
      senderKey sessionId).1 = data := by
  have hget : getJsonItem (storeEndToEndInboundGroupSession s senderKey sessionId data)
      (keyEndToEndInboundGroupSession senderKey sessionId) = data := by
    unfold storeEndToEndInboundGroupSession
    rw [getJsonItem_setJsonItem, if_pos rfl]
  have hwf2 : ∀ k ∈ igsKeys (storeEndToEndInboundGroupSession s senderKey sessionId data),
      (igsEntryAt (storeEndToEndInboundGroupSession s senderKey sessionId data) k).isSome
        = true := by
    intro k hk
    obtain ⟨hkmem, hkpre⟩ := List.mem_filter.mp hk
    have hcanon : ∃ a b, k = keyEndToEndInboundGroupSession a b := by
      rcases mem_getAllKeys_setItem s
          (keyEndToEndInboundGroupSession senderKey sessionId) data k hkmem with hm | hm
      · exact hwf k hm hkpre
      · exact ⟨senderKey, sessionId, hm⟩
    obtain ⟨a, b, rfl⟩ := hcanon
    simp [igsEntryAt, decodeIGSKey_canonical]
  obtain ⟨hes, hlen⟩ := igsEntries_eq_filterMap _ _ hwf2
  refine ⟨⟨(igsKeys (storeEndToEndInboundGroupSession s senderKey sessionId data)).filterMap
      (igsEntryAt (storeEndToEndInboundGroupSession s senderKey sessionId data)), ?_, ?_⟩, ?_⟩
  · unfold getAllEndToEndInboundGroupSessionsCalls
    rw [hes]
  · refine List.mem_filterMap.mpr ⟨keyEndToEndInboundGroupSession senderKey sessionId, ?_, ?_⟩
    · refine List.mem_filter.mpr ⟨?_, keyIGS_startsWith senderKey sessionId⟩
      exact mem_getAllKeys_setItem_self s _ data
    · simp [igsEntryAt, decodeIGSKey_canonical, hget]
  · unfold getEndToEndInboundGroupSession
    dsimp only
    exact hget

theorem store_then_list_roundtrip_witness :
    (∀ k ∈ getAllKeys ([] : Store), startsWith k INBOUND_SESSION_PREFIX = true →
      ∃ a b, k = keyEndToEndInboundGroupSession a b) ∧
    (∃ es : List ISession, getAllEndToEndInboundGroupSessionsCalls
        (storeEndToEndInboundGroupSession [] (str "this/that") (str "here/there")
          (Json.str (str "some/session"))) = some (es.map some ++ [none]) ∧
      (⟨str "this/that", str "here/there", Json.str (str "some/session")⟩ : ISession) ∈ es) ∧
    (getEndToEndInboundGroupSession
      (storeEndToEndInboundGroupSession [] (str "this/that") (str "here/there")
        (Json.str (str "some/session")))
      (str "this/that") (str "here/there")).1 = Json.str (str "some/session") := by
  have hwf : ∀ k ∈ getAllKeys ([] : Store), startsWith k INBOUND_SESSION_PREFIX = true →
      ∃ a b, k = keyEndToEndInboundGroupSession a b := by
    intro k hk
    simp [getAllKeys] at hk
  obtain ⟨h1, h2⟩ := store_then_list_roundtrip [] (str "this/that") (str "here/there")
    (Json.str (str "some/session")) hwf
  exact ⟨hwf, h1, h2⟩

/-! ### Lemmas: batch retrieval loops -/

theorem sessionsBatchLoop_no_cap (s : Store) (ks : List JSString) (acc : List Json)
    (htruthy : ∀ k ∈ ks, jsonFalsy (getJsonItem s k) = false)
    (hlen : acc.length + ks.length < SESSION_BATCH_SIZE) :
    sessionsBatchLoop s ks acc = acc ++ ks.map (getJsonItem s) := by
  induction ks generalizing acc with
  | nil => simp [sessionsBatchLoop]
  | cons k rest ih =>
    simp only [sessionsBatchLoop]
    rw [htruthy k (by simp)]
    simp only [Bool.false_eq_true, if_false]
    rw [if_neg (by
      simp only [List.length_append, List.length_cons, List.length_nil] at hlen ⊢
      omega)]
    rw [ih _ (fun x hx => htruthy x (by simp [hx])) (by
      simp only [List.length_append, List.length_cons, List.length_nil] at hlen ⊢
      omega)]
    simp

theorem sessionsBatchLoop_le (s : Store) (ks : List JSString) (acc : List Json)
    (hacc : acc.length < SESSION_BATCH_SIZE) :
    (sessionsBatchLoop s ks acc).length ≤ SESSION_BATCH_SIZE := by
  induction ks generalizing acc with
  | nil =>
    simp only [sessionsBatchLoop]
    omega
  | cons k rest ih =>
    simp only [sessionsBatchLoop]
    split_ifs with h1 h2
    · exact ih acc hacc
    · simp only [List.length_append, List.length_cons, List.length_nil] at h2 ⊢
      omega
    · refine ih _ ?_
      simp only [List.length_append, List.length_cons, List.length_nil] at h2 ⊢
      omega

/-- The SessionExtended record the group-session batch builds for a
storage key. -/
def igsBatchEntryAt (s : Store) (k : JSString) : Option SessionExtended :=
  (decodeIGSKey k).map (fun p => ⟨p.1, p.2, getJsonItem s k, jsInPromise k⟩)

theorem igsBatchEntries_length (s : Store) (ks : List JSString)
    (hdec : ∀ k ∈ ks, (decodeIGSKey k).isSome = true) :
    (ks.filterMap (igsBatchEntryAt s)).length = ks.length := by
  induction ks with
  | nil => rfl
  | cons k rest ih =>
    cases hd : decodeIGSKey k with
    | none =>
      have := hdec k (by simp)
      rw [hd] at this
      exact absurd this (by simp)
    | some p =>
      have h1 : igsBatchEntryAt s k = some ⟨p.1, p.2, getJsonItem s k, jsInPromise k⟩ := by
        simp [igsBatchEntryAt, hd]
      simp [List.filterMap_cons, h1, ih (fun x hx => hdec x (by simp [hx]))]

theorem igsBatchLoop_no_cap (s : Store) (ks : List JSString) (acc : List SessionExtended)
    (hdec : ∀ k ∈ ks, (decodeIGSKey k).isSome = true)
    (hlen : acc.length + ks.length < SESSION_BATCH_SIZE) :
    igsBatchLoop s ks acc = some (acc ++ ks.filterMap (igsBatchEntryAt s)) := by
  induction ks generalizing acc with
  | nil => simp [igsBatchLoop]
  | cons k rest ih =>
    cases hd : decodeIGSKey k with
    | none =>
      have := hdec k (by simp)
      rw [hd] at this
      exact absurd this (by simp)
    | some p =>
      have h1 : igsBatchEntryAt s k = some ⟨p.1, p.2, getJsonItem s k, jsInPromise k⟩ := by
        simp [igsBatchEntryAt, hd]
      simp only [igsBatchLoop, hd]
      rw [if_neg (by
        simp only [List.length_append, List.length_cons, List.length_nil] at hlen ⊢
        omega)]
      rw [ih _ (fun x hx => hdec x (by simp [hx])) (by
        simp only [List.length_append, List.length_cons, List.length_nil] at hlen ⊢
        omega)]
      simp [List.filterMap_cons, h1]

theorem igsBatchLoop_le (s : Store) (ks : List JSString) (acc l : List SessionExtended)
    (hacc : acc.length < SESSION_BATCH_SIZE)
    (h : igsBatchLoop s ks acc = some l) : l.length ≤ SESSION_BATCH_SIZE := by
  induction ks generalizing acc with
  | nil =>
    simp only [igsBatchLoop, Option.some.injEq] at h
    subst h
    omega
  | cons k rest ih =>
    simp only [igsBatchLoop] at h
    cases hd : decodeIGSKey k with
    | none =>
      rw [hd] at h
      exact absurd h (by simp)
    | some p =>
      rw [hd] at h
      dsimp only at h
      split_ifs at h with h1
      · injection h with h
        subst h
        simp only [List.length_append, List.length_cons, List.length_nil]
        omega
      · refine ih _ ?_ h
        simp only [List.length_append, List.length_cons, List.length_nil] at h1 ⊢
        omega

/-- C6: batch retrieval (sessions and inbound group sessions).  For
stores with well-formed entries under the relevant prefix (truthy
session values / decodable group-session keys): the result is JS null
exactly when zero entries exist; with between 1 and
SESSION_BATCH_SIZE - 1 entries it is a non-null list of exactly those
entries; and a non-null result never holds more than SESSION_BATCH_SIZE
entries. -/
theorem batch_retrieval_null_vs_partial (s : Store)
    (hwfS : ∀ k ∈ sessionKeys s, jsonFalsy (getJsonItem s k) = false)
    (hwfG : ∀ k ∈ igsKeys s, (decodeIGSKey k).isSome = true) :
    (sessionKeys s = [] → getEndToEndSessionsBatch s = none) ∧
    (sessionKeys s ≠ [] → (sessionKeys s).length < SESSION_BATCH_SIZE →
      getEndToEndSessionsBatch s = some ((sessionKeys s).map (getJsonItem s))) ∧
    (∀ l, getEndToEndSessionsBatch s = some l → l.length ≤ SESSION_BATCH_SIZE) ∧
    (igsKeys s = [] → getEndToEndInboundGroupSessionsBatch s = some none) ∧
    (igsKeys s ≠ [] → (igsKeys s).length < SESSION_BATCH_SIZE →
      getEndToEndInboundGroupSessionsBatch s =
        some (some ((igsKeys s).filterMap (igsBatchEntryAt s))) ∧
      ((igsKeys s).filterMap (igsBatchEntryAt s)).length = (igsKeys s).length) ∧
    (∀ l, getEndToEndInboundGroupSessionsBatch s = some (some l) →
      l.length ≤ SESSION_BATCH_SIZE) := by
  refine ⟨?_, ?_, ?_, ?_, ?_, ?_⟩
  · intro h0
    unfold getEndToEndSessionsBatch
    rw [h0]
    rfl
  · intro hne hlt
    unfold getEndToEndSessionsBatch
    rw [sessionsBatchLoop_no_cap s _ [] hwfS (by simpa using hlt)]
    rw [List.nil_append]
    rw [if_neg (by
      simp only [List.isEmpty_eq_true, List.map_eq_nil_iff]
      exact hne)]
  · intro l h
    unfold getEndToEndSessionsBatch at h
    dsimp only at h
    split_ifs at h with h1
    injection h with h
    subst h
    exact sessionsBatchLoop_le s _ [] (by simp [SESSION_BATCH_SIZE])
  · intro h0
    unfold getEndToEndInboundGroupSessionsBatch
    rw [h0]
    rfl
  · intro hne hlt
    unfold getEndToEndInboundGroupSessionsBatch
    rw [igsBatchLoop_no_cap s _ [] hwfG (by simpa using hlt)]
    rw [List.nil_append]
    have hlen := igsBatchEntries_length s (igsKeys s) hwfG
    refine ⟨?_, hlen⟩
    dsimp only
    rw [if_neg (by
      simp only [List.isEmpty_eq_true]
      intro hcontra
      rw [hcontra] at hlen
      simp only [List.length_nil] at hlen
      exact hne (List.eq_nil_of_length_eq_zero hlen.symm))]
  · intro l h
    unfold getEndToEndInboundGroupSessionsBatch at h
    cases hloop : igsBatchLoop s (igsKeys s) [] with
    | none =>
      rw [hloop] at h
      exact absurd h (by simp)
    | some l2 =>
      rw [hloop] at h
      dsimp only at h
      split_ifs at h
      · exact absurd h (by simp)
      · injection h with h
        injection h with h
        subst h
        exact igsBatchLoop_le s _ [] l2 (by simp [SESSION_BATCH_SIZE]) hloop

theorem batch_retrieval_null_vs_partial_witness :
    (∀ k ∈ sessionKeys [(keyEndToEndSession (str "d") (str "x"), Json.obj []),
        (keyEndToEndInboundGroupSession (str "a") (str "b"), Json.obj [])],
      jsonFalsy (getJsonItem [(keyEndToEndSession (str "d") (str "x"), Json.obj []),
        (keyEndToEndInboundGroupSession (str "a") (str "b"), Json.obj [])] k) = false) ∧
    (∀ k ∈ igsKeys [(keyEndToEndSession (str "d") (str "x"), Json.obj []),
        (keyEndToEndInboundGroupSession (str "a") (str "b"), Json.obj [])],
      (decodeIGSKey k).isSome = true) ∧
    getEndToEndSessionsBatch [(keyEndToEndSession (str "d") (str "x"), Json.obj []),
        (keyEndToEndInboundGroupSession (str "a") (str "b"), Json.obj [])] =
      some [Json.obj []] ∧
    getEndToEndInboundGroupSessionsBatch
        [(keyEndToEndSession (str "d") (str "x"), Json.obj []),
        (keyEndToEndInboundGroupSession (str "a") (str "b"), Json.obj [])] =
      some (some [⟨str "a", str "b", Json.obj [], false⟩]) ∧
    getEndToEndSessionsBatch [] = none ∧
    getEndToEndInboundGroupSessionsBatch [] = some none := by
  have hwfS : ∀ k ∈ sessionKeys [(keyEndToEndSession (str "d") (str "x"), Json.obj []),
      (keyEndToEndInboundGroupSession (str "a") (str "b"), Json.obj [])],
      jsonFalsy (getJsonItem [(keyEndToEndSession (str "d") (str "x"), Json.obj []),
        (keyEndToEndInboundGroupSession (str "a") (str "b"), Json.obj [])] k) = false := by
    decide
  have hwfG : ∀ k ∈ igsKeys [(keyEndToEndSession (str "d") (str "x"), Json.obj []),
      (keyEndToEndInboundGroupSession (str "a") (str "b"), Json.obj [])],
      (decodeIGSKey k).isSome = true := by
    decide
  obtain ⟨c1, c2, c3, c4, c5, c6⟩ := batch_retrieval_null_vs_partial
    [(keyEndToEndSession (str "d") (str "x"), Json.obj []),
     (keyEndToEndInboundGroupSession (str "a") (str "b"), Json.obj [])] hwfS hwfG
  obtain ⟨d1, d2, d3, d4, d5, d6⟩ := batch_retrieval_null_vs_partial []
    (by intro k hk; simp [sessionKeys, getAllKeys] at hk)
    (by intro k hk; simp [igsKeys, getAllKeys] at hk)
  refine ⟨hwfS, hwfG, ?_, ?_, d1 rfl, d4 rfl⟩
  · exact (c2 (by decide) (by decide)).trans (by rfl)
  · exact ((c5 (by decide) (by decide)).1).trans (by rfl)

/-! ### Lemmas: sessions-needing-backup bookkeeping -/

theorem splitSlash_backupMapKey (a b : JSString) :
    splitSlash (backupMapKey a b) = [encodeURIComponent a, encodeURIComponent b] := by
  unfold backupMapKey
  have h : encodeURIComponent a ++ str "/" ++ encodeURIComponent b =
      encodeURIComponent a ++ '/' :: encodeURIComponent b := by
    simp [str]
  rw [h, splitSlash_append _ _ (slashFree_encode a),
    splitSlash_noSlash _ (slashFree_encode b)]

theorem backupLoop_zero (s : Store) (pairs : List (JSString × JSString))
    (acc : List ISession) :
    backupLoop s 0 (pairs.map (fun p => (backupMapKey p.1 p.2, Json.bool true))) acc =
      some (acc ++ pairs.filterMap (fun p =>
        if jsonFalsy (getJsonItem s (keyEndToEndInboundGroupSession p.1 p.2)) then none
        else some ⟨p.1, p.2,
          getJsonItem s (keyEndToEndInboundGroupSession p.1 p.2)⟩)) := by
  induction pairs generalizing acc with
  | nil => simp [backupLoop]
  | cons p rest ih =>
    obtain ⟨a, b⟩ := p
    simp only [List.map_cons, backupLoop, splitSlash_backupMapKey, segAt, List.get?,
      Option.getD_some, decode_encode]
    by_cases hf : jsonFalsy (getJsonItem s (keyEndToEndInboundGroupSession a b)) = true
    · rw [if_pos hf, ih acc]
      simp [List.filterMap_cons, hf]
    · rw [if_neg hf]
      rw [if_neg (by simp)]
      rw [ih]
      simp [List.filterMap_cons, hf]

theorem backupLoop_le (s : Store) (limit : Nat) (fields : List (JSString × Json))
    (acc l : List ISession) (_hl : limit ≠ 0) (hacc : acc.length < limit)
    (h : backupLoop s limit fields acc = some l) : l.length ≤ limit := by
  induction fields generalizing acc with
  | nil =>
    simp only [backupLoop, Option.some.injEq] at h
    subst h
    omega
  | cons f rest ih =>
    obtain ⟨kk, v⟩ := f
    simp only [backupLoop] at h
    cases hd0 : decodeURIComponent (segAt (splitSlash kk) 0) with
    | none =>
      rw [hd0] at h
      exact absurd h (by simp)
    | some a =>
      cases hd1 : decodeURIComponent (segAt (splitSlash kk) 1) with
      | none =>
        rw [hd0, hd1] at h
        exact absurd h (by simp)
      | some b =>
        rw [hd0, hd1] at h
        dsimp only at h
        split_ifs at h with h1 h2
        · exact ih acc hacc h
        · injection h with h
          subst h
          simp only [List.length_append, List.length_cons, List.length_nil]
          omega
        · refine ih _ ?_ h
          simp only [List.length_append, List.length_cons, List.length_nil] at h2 ⊢
          omega

/-- C8: getSessionsNeedingBackup with limit 0 returns exactly the
marked membership entries whose group-session data exists (is truthy)
in the backend, each joined with that data, skipping absent ones; with
a nonzero limit the result never exceeds the limit;
countSessionsNeedingBackup returns the size of the membership map,
whether or not the underlying session data exists. -/
theorem sessionsNeedingBackup_spec (s : Store) (pairs : List (JSString × JSString))
    (hmap : getJsonItem s KEY_SESSIONS_NEEDING_BACKUP =
      Json.obj (pairs.map (fun p => (backupMapKey p.1 p.2, Json.bool true)))) :
    getSessionsNeedingBackup s 0 = some (pairs.filterMap (fun p =>
      if jsonFalsy (getJsonItem s (keyEndToEndInboundGroupSession p.1 p.2)) then none
      else some ⟨p.1, p.2, getJsonItem s (keyEndToEndInboundGroupSession p.1 p.2)⟩)) ∧
    (∀ limit l, limit ≠ 0 → getSessionsNeedingBackup s limit = some l →
      l.length ≤ limit) ∧
    countSessionsNeedingBackup s = pairs.length := by
  refine ⟨?_, ?_, ?_⟩
  · unfold getSessionsNeedingBackup
    rw [hmap]
    exact (backupLoop_zero s pairs []).trans (by simp)
  · intro limit l hl h
    unfold getSessionsNeedingBackup at h
    exact backupLoop_le s limit _ [] l hl (by simp only [List.length_nil]; omega) h
  · unfold countSessionsNeedingBackup
    rw [hmap]
    simp [jsonObjFields]

theorem sessionsNeedingBackup_spec_witness :
    getJsonItem [(KEY_SESSIONS_NEEDING_BACKUP,
        Json.obj [(backupMapKey (str "bob") (str "one"), Json.bool true)]),
      (keyEndToEndInboundGroupSession (str "bob") (str "one"), Json.obj [])]
      KEY_SESSIONS_NEEDING_BACKUP =
      Json.obj ([((str "bob"), (str "one"))].map
        (fun p => (backupMapKey p.1 p.2, Json.bool true))) ∧
    getSessionsNeedingBackup [(KEY_SESSIONS_NEEDING_BACKUP,
        Json.obj [(backupMapKey (str "bob") (str "one"), Json.bool true)]),
      (keyEndToEndInboundGroupSession (str "bob") (str "one"), Json.obj [])] 0 =
      some [⟨str "bob", str "one", Json.obj []⟩] ∧
    countSessionsNeedingBackup [(KEY_SESSIONS_NEEDING_BACKUP,
        Json.obj [(backupMapKey (str "bob") (str "one"), Json.bool true)]),
      (keyEndToEndInboundGroupSession (str "bob") (str "one"), Json.obj [])] = 1 := by
  have h := sessionsNeedingBackup_spec
    [(KEY_SESSIONS_NEEDING_BACKUP,
        Json.obj [(backupMapKey (str "bob") (str "one"), Json.bool true)]),
      (keyEndToEndInboundGroupSession (str "bob") (str "one"), Json.obj [])]
    [((str "bob"), (str "one"))] rfl
  exact ⟨rfl, h.1.trans (by rfl), h.2.2.trans (by rfl)⟩

/-! ### Lemmas: listing operations -/

theorem objInsert_fresh (fields : List (JSString × Json)) (k : JSString) (v : Json)
    (h : (fields.map (fun p => p.1)).contains k = false) :
    objInsert fields k v = fields ++ [(k, v)] := by
  unfold objInsert
  rw [h]
  rfl

theorem allSessionValues_canonical (s : Store) (ks : List JSString)
    (h : ∀ k ∈ ks, ∃ a b, k = keyEndToEndSession a b) :
    allSessionValues s ks = some (ks.map (getJsonItem s)) := by
  induction ks with
  | nil => rfl
  | cons k rest ih =>
    obtain ⟨a, b, rfl⟩ := h k (by simp)
    simp only [allSessionValues, splitSlash_keySession, segAt, List.get?,
      Option.getD_some, decode_encode]
    rw [ih (fun x hx => h x (by simp [hx]))]
    simp

theorem deviceSessionsObj_canonical (s : Store) (dk : JSString) (sids : List JSString)
    (hnd : sids.Nodup) (acc : List (JSString × Json))
    (hacc : ∀ x ∈ sids, ¬ x ∈ acc.map (fun p => p.1)) :
    deviceSessionsObj s dk (sids.map (keyEndToEndSession dk)) acc =
      some (acc ++ sids.map (fun sid =>
        (sid, getJsonItem s (keyEndToEndSession dk sid)))) := by
  induction sids generalizing acc with
  | nil => simp [deviceSessionsObj]
  | cons sid rest ih =>
    simp only [List.map_cons, deviceSessionsObj, splitSlash_keySession, segAt, List.get?,
      Option.getD_some, decode_encode]
    have hfresh : (acc.map (fun p => p.1)).contains sid = false := by
      have hm := hacc sid (by simp)
      simpa using hm
    rw [objInsert_fresh acc sid _ hfresh]
    obtain ⟨hs1, hs2⟩ := List.nodup_cons.mp hnd
    rw [ih hs2 (acc ++ [(sid, getJsonItem s (keyEndToEndSession dk sid))])]
    · simp
    · intro x hx
      simp only [List.map_append, List.map_cons, List.map_nil, List.mem_append,
        List.mem_singleton]
      rintro (hx2 | hx2)
      · exact hacc x (by simp [hx]) hx2
      · exact hs1 (hx2 ▸ hx)

/-- C2 counterexample: a store holding exactly one session entry.
getAllEndToEndSessions invokes its callback exactly once, with the
session value (which is not null): there is no terminal null delivery,
contradicting the claimed "once per entry and then once with null"
(which would be two invocations ending in null); getEndToEndSessions
likewise invokes its callback exactly once, with a map, not once per
entry plus a null sentinel. -/
theorem getAllEndToEndSessions_no_sentinel_counterexample :
    sessionKeys [(keyEndToEndSession (str "a") (str "b"), Json.obj [])] =
      [keyEndToEndSession (str "a") (str "b")] ∧
    getAllEndToEndSessionsCalls [(keyEndToEndSession (str "a") (str "b"), Json.obj [])] =
      some [Json.obj []] ∧
    Json.obj [] ≠ Json.null ∧
    getEndToEndSessionsCalls [(keyEndToEndSession (str "a") (str "b"), Json.obj [])]
      (str "a") = some [[(str "b", Json.obj [])]] :=
  ⟨rfl, rfl, fun h => Json.noConfusion h, rfl⟩

/-- C2 (amended): delivery patterns of the three listing operations.
getAllEndToEndInboundGroupSessions invokes its callback once per
matching entry and then a final time with null;
getAllEndToEndSessions invokes its callback once per matching entry
with NO terminal null; getEndToEndSessions invokes its callback exactly
once, with the object mapping each stored sessionId under the device to
its session info. -/
theorem listing_delivery_modes (s : Store) (dk : JSString) (sids : List JSString) :
    ((∀ k ∈ igsKeys s, (igsEntryAt s k).isSome = true) →
      ∃ es : List ISession, getAllEndToEndInboundGroupSessionsCalls s =
          some (es.map some ++ [none]) ∧ es.length = (igsKeys s).length) ∧
    ((∀ k ∈ sessionKeys s, ∃ a b, k = keyEndToEndSession a b) →
      getAllEndToEndSessionsCalls s = some ((sessionKeys s).map (getJsonItem s))) ∧
    ((getAllKeys s).filter (fun k => startsWith k (endToEndSessionKeyStart dk)) =
        sids.map (keyEndToEndSession dk) → sids.Nodup →
      getEndToEndSessionsCalls s dk =
        some [sids.map (fun sid =>
          (sid, getJsonItem s (keyEndToEndSession dk sid)))]) := by
  refine ⟨?_, ?_, ?_⟩
  · intro hwf
    obtain ⟨hes, hlen⟩ := igsEntries_eq_filterMap s (igsKeys s) hwf
    refine ⟨(igsKeys s).filterMap (igsEntryAt s), ?_, hlen⟩
    unfold getAllEndToEndInboundGroupSessionsCalls
    rw [hes]
  · intro hwf
    unfold getAllEndToEndSessionsCalls
    exact allSessionValues_canonical s (sessionKeys s) hwf
  · intro hfilter hnd
    unfold getEndToEndSessionsCalls
    rw [hfilter]
    rw [deviceSessionsObj_canonical s dk sids hnd [] (by simp)]
    simp

theorem listing_delivery_modes_witness :
    (∃ es : List ISession, getAllEndToEndInboundGroupSessionsCalls
        [(keyEndToEndSession (str "dev1") (str "s1"), Json.obj []),
         (keyEndToEndInboundGroupSession (str "g") (str "h"), Json.obj [])] =
        some (es.map some ++ [none]) ∧
      es.length = (igsKeys
        [(keyEndToEndSession (str "dev1") (str "s1"), Json.obj []),
         (keyEndToEndInboundGroupSession (str "g") (str "h"), Json.obj [])]).length) ∧
    getAllEndToEndSessionsCalls
        [(keyEndToEndSession (str "dev1") (str "s1"), Json.obj []),
         (keyEndToEndInboundGroupSession (str "g") (str "h"), Json.obj [])] =
      some [Json.obj []] ∧
    getEndToEndSessionsCalls
        [(keyEndToEndSession (str "dev1") (str "s1"), Json.obj []),
         (keyEndToEndInboundGroupSession (str "g") (str "h"), Json.obj [])]
        (str "dev1") =
      some [[(str "s1", Json.obj [])]] := by
  obtain ⟨c1, c2, c3⟩ := listing_delivery_modes
    [(keyEndToEndSession (str "dev1") (str "s1"), Json.obj []),
     (keyEndToEndInboundGroupSession (str "g") (str "h"), Json.obj [])]
    (str "dev1") [str "s1"]
  refine ⟨c1 (by decide), ?_, ?_⟩
  · refine (c2 ?_).trans (by rfl)
    intro k hk
    have hkeys : sessionKeys
        [(keyEndToEndSession (str "dev1") (str "s1"), Json.obj []),
         (keyEndToEndInboundGroupSession (str "g") (str "h"), Json.obj [])] =
        [keyEndToEndSession (str "dev1") (str "s1")] := rfl
    rw [hkeys, List.mem_singleton] at hk
    subst hk
    exact ⟨str "dev1", str "s1", rfl⟩
  · exact (c3 rfl (by simp)).trans (by rfl)
